import Mathlib

/-!
Verification of the predai time-series pipeline (predai/rootfs/predai.py).

Modelling conventions for the shallow embedding:
* Instants are integers counting minutes on the single reference clock of the
  program (all timestamps are normalized to minute precision by
  `timestr_to_datetime`, which truncates seconds and microseconds, so a minute
  count loses nothing).
* Python float values are embedded as rationals; the claims proved here do not
  depend on rounding of binary floating point.
* A raw observation carries the outcome of the two parses the source performs
  on it: `state` is the result of `float(state)` (`none` when that call raises
  `ValueError`) and `last_updated` is the result of `timestr_to_datetime`
  (`none` when the timestamp string parses with neither format).
* Python exceptions are embedded as `Except` errors.
-/

/-- One entry of the raw history feed, with both parses precomputed
(see the modelling conventions above). -/
structure RawObs where
  state : Option ℚ
  last_updated : Option ℤ
deriving DecidableEq, Repr

/-- One row of a resampled series: the `ds`/`y` pair the source keeps in its
dataframes. -/
structure Sample where
  ds : ℤ
  y : ℚ
deriving DecidableEq, Repr

instance : Inhabited Sample := ⟨⟨0, 0⟩⟩

/-- Exceptions `Prophet.process_dataset` can raise during initialization:
`new_data[0]` on an empty list (IndexError) and the uncaught
`float(new_data[0]["state"])` (ValueError). -/
inductive PdError where
  | indexError
  | valueError
deriving DecidableEq, Repr

/-- The while-loop of `Prophet.process_dataset` (predai.py lines 116-134).
State passed through: the remaining suffix of `new_data` (the source keeps an
index `data_index` that only moves forward), `timenow`, the accumulated
`dataset`, `value` and `last_value`.  `fuel` bounds the number of loop
iterations; with a positive `period` the loop of the source always terminates
and the fuel chosen by `process_dataset` is never exhausted. -/
def pdLoop (period end_time : ℤ) (incrementing : Bool) :
    ℕ → List RawObs → ℤ → List Sample → ℚ → ℚ → List Sample × ℚ
  | 0, _, _, dataset, value, _ => (dataset, value)
  | _ + 1, [], _, dataset, value, _ => (dataset, value)
  | fuel + 1, o :: rest, timenow, dataset, value, last_value =>
    if timenow < end_time then
      let value := o.state.getD last_value
      match o.last_updated with
      | none => pdLoop period end_time incrementing fuel rest timenow dataset value last_value
      | some start_time =>
        if start_time < timenow then
          pdLoop period end_time incrementing fuel rest timenow dataset value last_value
        else
          let real_value := if incrementing then max (value - last_value) 0 else value
          pdLoop period end_time incrementing fuel (o :: rest) (timenow + period)
            (dataset ++ [⟨timenow, real_value⟩]) value value
    else (dataset, value)

/-- `Prophet.process_dataset` (predai.py lines 101-137): resample the raw
observations onto the regular grid starting at `start_time` (already
minute-precision in this model), returning the dataframe and the last raw
`value`.  When `incrementing`, the delta baseline `last_value` is initialized
from the first raw observation; that access raises on an empty list and its
`float` call raises on an unparseable state, both outside any handler. -/
def process_dataset (new_data : List RawObs) (start_time end_time : ℤ) (period : ℤ)
    (incrementing : Bool) : Except PdError (List Sample × ℚ) :=
  let fuel := new_data.length + (end_time - start_time).toNat + 1
  if incrementing then
    match new_data with
    | [] => .error .indexError
    | o :: _ =>
      match o.state with
      | none => .error .valueError
      | some v0 => .ok (pdLoop period end_time incrementing fuel new_data start_time [] 0 v0)
  else
    .ok (pdLoop period end_time incrementing fuel new_data start_time [] 0 0)

/-- `subtract_set` (predai.py lines 197-219): for each row of `dataset`, look
up the first row of `subset` with the same `ds` (0 when absent) and append the
difference, floored at 0 in counter mode.  The `now` argument is accepted and
unused, as in the source. -/
def subtract_set (dataset subset : List Sample) (now : ℤ) (incrementing : Bool) :
    List Sample :=
  dataset.foldl (fun pruned row =>
    let car_value := ((subset.find? fun c => c.ds == row.ds).map Sample.y).getD 0
    let value := if incrementing then max (row.y - car_value) 0 else row.y - car_value
    pruned ++ [⟨row.ds, value⟩]) []

/-- One row of the forecast dataframe consumed by `Prophet.save_prediction`:
`ds`, the predicted `yhat1`, and the observed `y`, which is NaN on the future
rows (embedded as `none`). -/
structure FPoint where
  ds : ℤ
  yhat1 : ℚ
  y : Option ℚ
deriving DecidableEq, Repr

/-- The per-iteration state of the loop of `Prophet.save_prediction`: the two
running totals, the last `value` read (absent before the first row; the source
leaves the variable unbound, so `final` would raise NameError on an empty
forecast in non-counter mode), and the two result dicts.  Dicts are embedded
as association lists where a later entry for a key supersedes an earlier one,
matching Python assignment; `dlookup` reads them accordingly. -/
structure SPState where
  total : ℚ
  total_org : ℚ
  value : Option ℚ
  timeseries : List (ℤ × ℚ)
  timeseries_org : List (ℤ × ℚ)
deriving DecidableEq, Repr

/-- Python `round(x, 2)`: scale by 100, round to the nearest integer with ties
going to the even neighbour (the rounding of Python round), and scale back. -/
def round2 (q : ℚ) : ℚ :=
  let n := q * 100
  let f : ℤ := n.num.fdiv (n.den : ℤ)
  let r : ℚ := n - (f : ℚ)
  let i : ℤ :=
    if r < 1 / 2 then f
    else if 1 / 2 < r then f + 1
    else if f % 2 = 0 then f else f + 1
  (i : ℚ) / 100

/-- `timestamp.hour == 0 and timestamp.minute == 0` for an instant counted in
minutes of the reference clock. -/
def isMidnight (t : ℤ) : Bool := t % 1440 == 0

/-- The body of the `for index, row in pred.iterrows()` loop of
`Prophet.save_prediction` (predai.py lines 161-190).  `timestamp` is computed
as in the source: `diff = ptimestamp - now; timestamp = now + diff`. -/
def sp_step (now : ℤ) (incrementing reset_daily : Bool) (s : SPState) (p : FPoint) :
    SPState :=
  let timestamp := now + (p.ds - now)
  let totals :=
    if timestamp ≤ now ∧ reset_daily = true ∧ isMidnight timestamp = true then ((0 : ℚ), (0 : ℚ))
    else (s.total, s.total_org)
  let total := totals.1 + p.yhat1
  let org : ℚ × Option ℚ :=
    match p.y with
    | some v => (totals.2 + v, some v)
    | none => (totals.2, none)
  let ts :=
    s.timeseries ++ [(timestamp, if incrementing then round2 total else round2 p.yhat1)]
  let torg :=
    match org.2 with
    | some v =>
        if v ≠ 0 then
          s.timeseries_org ++ [(timestamp, if incrementing then round2 org.1 else round2 v)]
        else s.timeseries_org
    | none => s.timeseries_org
  ⟨total, org.1, some p.yhat1, ts, torg⟩

/-- The published record of `Prophet.save_prediction`: the `results` dict, the
`source` dict, and the `state` value (`none` embeds the NameError of
`final = total if incrementing else value` on an empty forecast). -/
structure PredResult where
  timeseries : List (ℤ × ℚ)
  timeseries_org : List (ℤ × ℚ)
  final : Option ℚ
deriving DecidableEq, Repr

/-- `Prophet.save_prediction` (predai.py lines 151-193), as the pure
computation of the published record. -/
def save_prediction (pred : List FPoint) (now : ℤ) (incrementing reset_daily : Bool) :
    PredResult :=
  let s := pred.foldl (sp_step now incrementing reset_daily) ⟨0, 0, none, [], []⟩
  ⟨s.timeseries, s.timeseries_org, if incrementing then some s.total else s.value⟩

/-- Lookup in a dict embedded as an association list: the last write for a key
wins, as with Python dict assignment. -/
def dlookup (m : List (ℤ × ℚ)) (k : ℤ) : Option ℚ :=
  m.foldl (fun acc p => if p.1 = k then some p.2 else acc) none

/-- The claim C2 names a model origin for the forecast; per the wording of the
spec it is the first post-historical point of the forecast, i.e. the first row
whose observed `y` is NaN. -/
def specModelOrigin (pred : List FPoint) : Option ℤ :=
  (pred.find? fun p => p.y.isNone).map FPoint.ds

/-- Exceptions `Database.store_history` can raise: the TypeError of
`prev["ds"]` when `prev` is None, and the sqlite3 IntegrityError of an INSERT
that violates the `timestamp TEXT PRIMARY KEY` constraint of the table.  The
error carries the table content at the moment of the raise. -/
inductive DbError where
  | typeError
  | integrityError
deriving DecidableEq, Repr

/-- One `INSERT INTO table (timestamp, value) VALUES (...)` against a table
whose `timestamp` column is the primary key: raises IntegrityError when the
timestamp is already present. -/
def insertRow (table : List Sample) (ts : ℤ) (v : ℚ) : Except DbError (List Sample) :=
  if table.any fun r => r.ds == ts then .error .integrityError
  else .ok (table ++ [⟨ts, v⟩])

/-- The `for index, row in history.iterrows()` loop of
`Database.store_history` (predai.py lines 263-269).  `prev_values` is the
snapshot of the `ds` column of `prev` taken before the loop; the source never
updates it inside the loop. -/
def storeGo (prev_values : List ℤ) :
    List Sample → List Sample → List Sample → Except (DbError × List Sample) (List Sample × List Sample)
  | [], table, prev => .ok (table, prev)
  | row :: rest, table, prev =>
    if row.ds ∈ prev_values then storeGo prev_values rest table prev
    else
      match insertRow table row.ds row.y with
      | .error e => .error (e, table)
      | .ok table2 => storeGo prev_values rest table2 (prev ++ [row])

/-- `Database.store_history` (predai.py lines 250-272): append to `table`
every row of `history` whose `ds` is not among the `ds` values of `prev`,
extending `prev` in step, and return the new table content together with the
extended `prev`.  When `prev` is None, `prev["ds"]` raises TypeError before
any insert.  Timestamps are `ds` instants; `str` of the source is injective
on them and is dropped from the model. -/
def store_history (table : List Sample) (history : List Sample) (prev : Option (List Sample)) :
    Except (DbError × List Sample) (List Sample × List Sample) :=
  match prev with
  | none => .error (.typeError, table)
  | some prev =>
    let prev_values := prev.map Sample.ds
    storeGo prev_values history table prev

/-- The subtrahend value the spec contract of `subtract` prescribes for a
minuend timestamp: the value of the subtrahend sample with equal `ds`, or 0
when absent. -/
def specSubtrahendValue (subset : List Sample) (d : ℤ) : ℚ :=
  ((subset.find? fun c => c.ds == d).map Sample.y).getD 0

/-- The result value the spec contract of `subtract` prescribes. -/
def specSubtractValue (incrementing : Bool) (m sub : ℚ) : ℚ :=
  if incrementing then max (m - sub) 0 else m - sub

/-! ## Concrete data for the worked examples -/

/-- The raw observations of the resampler example: values 5, 8 and 12 observed
at 08:00, 08:20 and 08:50, in minutes of the day. -/
def obsC1 : List RawObs := [⟨some 5, some 480⟩, ⟨some 8, some 500⟩, ⟨some 12, some 530⟩]

/-- A two-row forecast whose first post-historical row (`y` NaN) sits at
instant 30, used against a wall clock `now` of 100. -/
def predC2 : List FPoint := [⟨0, 1, some 1⟩, ⟨30, 2, none⟩]

/-! ## Helper lemmas about the save_prediction loop -/

theorem sp_step_key (now : ℤ) (inc rd : Bool) (s : SPState) (p : FPoint) :
    ∃ w, (sp_step now inc rd s p).timeseries = s.timeseries ++ [(p.ds, w)] := by
  have ht : now + (p.ds - now) = p.ds := by ring
  refine ⟨if inc = true then
      round2 ((if p.ds ≤ now ∧ rd = true ∧ isMidnight p.ds = true then ((0 : ℚ), (0 : ℚ))
        else (s.total, s.total_org)).1 + p.yhat1)
    else round2 p.yhat1, ?_⟩
  simp only [sp_step, ht]

theorem sp_run_keys (now : ℤ) (inc rd : Bool) :
    ∀ (l : List FPoint) (s : SPState),
      ∃ Δ, (l.foldl (sp_step now inc rd) s).timeseries = s.timeseries ++ Δ ∧
        Δ.map Prod.fst = l.map FPoint.ds := by
  intro l
  induction l with
  | nil => exact fun s => ⟨[], by simp⟩
  | cons p rest ih =>
      intro s
      obtain ⟨w, hw⟩ := sp_step_key now inc rd s p
      obtain ⟨Δ, hΔ, hk⟩ := ih (sp_step now inc rd s p)
      refine ⟨(p.ds, w) :: Δ, ?_, by simp [hk]⟩
      simp [List.foldl_cons, hΔ, hw]

/-! ## Helper lemmas about the process_dataset loop -/

theorem pdLoop_nonneg (period end_time : ℤ) :
    ∀ (fuel : ℕ) (l : List RawObs) (timenow : ℤ) (dataset : List Sample) (value last_value : ℚ),
      (∀ s ∈ dataset, 0 ≤ s.y) →
      ∀ s ∈ (pdLoop period end_time true fuel l timenow dataset value last_value).1, 0 ≤ s.y := by
  intro fuel
  induction fuel with
  | zero =>
      intro l timenow dataset value lv h s hs
      simp only [pdLoop] at hs
      exact h s hs
  | succ n ih =>
      intro l timenow dataset value lv h s hs
      cases l with
      | nil =>
          simp only [pdLoop] at hs
          exact h s hs
      | cons o rest =>
          by_cases htime : timenow < end_time
          · cases hlu : o.last_updated with
            | none =>
                simp only [pdLoop, if_pos htime, hlu] at hs
                exact ih rest timenow dataset _ lv h s hs
            | some u =>
                by_cases hu : u < timenow
                · simp only [pdLoop, if_pos htime, hlu, if_pos hu] at hs
                  exact ih rest timenow dataset _ lv h s hs
                · simp only [pdLoop, if_pos htime, hlu, if_neg hu, if_true] at hs
                  refine ih (o :: rest) (timenow + period) _ _ _ ?_ s hs
                  intro q hq
                  rcases List.mem_append.mp hq with hq | hq
                  · exact h q hq
                  · simp only [List.mem_singleton] at hq
                    subst hq
                    exact le_max_right _ _
          · simp only [pdLoop, if_neg htime] at hs
            exact h s hs

theorem pdLoop_allnone (period end_time : ℤ) (inc : Bool) :
    ∀ (fuel : ℕ) (l : List RawObs) (timenow : ℤ) (dataset : List Sample),
      (∀ o ∈ l, o.state = none) →
      (∀ s ∈ dataset, s.y = 0) →
      (∀ s ∈ (pdLoop period end_time inc fuel l timenow dataset 0 0).1, s.y = 0) ∧
        (pdLoop period end_time inc fuel l timenow dataset 0 0).2 = 0 := by
  intro fuel
  induction fuel with
  | zero =>
      intro l timenow dataset hl h
      exact ⟨fun s hs => h s (by simpa only [pdLoop] using hs), by simp only [pdLoop]⟩
  | succ n ih =>
      intro l timenow dataset hl h
      cases l with
      | nil => exact ⟨fun s hs => h s (by simpa only [pdLoop] using hs), by simp only [pdLoop]⟩
      | cons o rest =>
          have ho : o.state = none := hl o (by simp)
          have hrest : ∀ q ∈ rest, q.state = none := fun q hq => hl q (by simp [hq])
          by_cases htime : timenow < end_time
          · cases hlu : o.last_updated with
            | none =>
                have := ih rest timenow dataset hrest h
                simpa only [pdLoop, if_pos htime, ho, hlu, Option.getD_none] using this
            | some u =>
                by_cases hu : u < timenow
                · have := ih rest timenow dataset hrest h
                  simpa only [pdLoop, if_pos htime, ho, hlu, if_pos hu, Option.getD_none]
                    using this
                · have hzero : ∀ s ∈ dataset ++
                      [(⟨timenow, if inc = true then max ((0 : ℚ) - 0) 0 else 0⟩ : Sample)],
                      s.y = 0 := by
                    intro q hq
                    rcases List.mem_append.mp hq with hq | hq
                    · exact h q hq
                    · simp only [List.mem_singleton] at hq
                      subst hq
                      cases inc <;> simp
                  have := ih (o :: rest) (timenow + period)
                    (dataset ++ [⟨timenow, if inc = true then max ((0 : ℚ) - 0) 0 else 0⟩])
                    hl hzero
                  simpa only [pdLoop, if_pos htime, ho, hlu, if_neg hu, Option.getD_none]
                    using this
          · exact ⟨fun s hs => h s (by simpa only [pdLoop, if_neg htime] using hs),
              by simp only [pdLoop, if_neg htime]⟩

theorem pdLoop_skips (period end_time : ℤ) (inc : Bool) (timenow : ℤ)
    (htime : timenow < end_time) :
    ∀ (pre : List RawObs) (fuel : ℕ) (l : List RawObs) (dataset : List Sample) (value lv : ℚ),
      (∀ o ∈ pre, o.last_updated = none ∨ ∃ u, o.last_updated = some u ∧ u < timenow) →
      ∃ v2, pdLoop period end_time inc (fuel + pre.length) (pre ++ l) timenow dataset value lv =
        pdLoop period end_time inc fuel l timenow dataset v2 lv := by
  intro pre
  induction pre with
  | nil => intro fuel l dataset value lv _; exact ⟨value, rfl⟩
  | cons o pre ih =>
      intro fuel l dataset value lv hskip
      have hstep : pdLoop period end_time inc (fuel + (o :: pre).length)
          ((o :: pre) ++ l) timenow dataset value lv =
          pdLoop period end_time inc (fuel + pre.length) (pre ++ l) timenow dataset
            (o.state.getD lv) lv := by
        rcases hskip o (by simp) with hnone | ⟨u, hu, hult⟩
        · simp only [List.length_cons, List.cons_append]
          show pdLoop period end_time inc (fuel + pre.length + 1)
            (o :: (pre ++ l)) timenow dataset value lv = _
          simp only [pdLoop, if_pos htime, hnone]
        · simp only [List.length_cons, List.cons_append]
          show pdLoop period end_time inc (fuel + pre.length + 1)
            (o :: (pre ++ l)) timenow dataset value lv = _
          simp only [pdLoop, if_pos htime, hu, if_pos hult]
      rw [hstep]
      exact ih fuel l dataset (o.state.getD lv) lv
        fun q hq => hskip q (by simp [hq])

theorem pdLoop_emit (period end_time : ℤ) (k : ℕ) (oi : RawObs) (rest : List RawObs)
    (timenow : ℤ) (dataset : List Sample) (value lv : ℚ) (u : ℤ)
    (htime : timenow < end_time) (hlu : oi.last_updated = some u) (hu : ¬u < timenow) :
    pdLoop period end_time true (k + 1) (oi :: rest) timenow dataset value lv =
      pdLoop period end_time true k (oi :: rest) (timenow + period)
        (dataset ++ [⟨timenow, max (oi.state.getD lv - lv) 0⟩])
        (oi.state.getD lv) (oi.state.getD lv) := by
  simp only [pdLoop, if_pos htime, hlu, if_neg hu, if_true]

theorem pdLoop_extends (period end_time : ℤ) (inc : Bool) :
    ∀ (fuel : ℕ) (l : List RawObs) (timenow : ℤ) (dataset : List Sample) (value lv : ℚ),
      ∃ Δ, (pdLoop period end_time inc fuel l timenow dataset value lv).1 = dataset ++ Δ := by
  intro fuel
  induction fuel with
  | zero => intro l timenow dataset value lv; exact ⟨[], by simp [pdLoop]⟩
  | succ n ih =>
      intro l timenow dataset value lv
      cases l with
      | nil => exact ⟨[], by simp [pdLoop]⟩
      | cons o rest =>
          by_cases htime : timenow < end_time
          · cases hlu : o.last_updated with
            | none =>
                obtain ⟨Δ, hΔ⟩ := ih rest timenow dataset (o.state.getD lv) lv
                exact ⟨Δ, by simp only [pdLoop, if_pos htime, hlu]; exact hΔ⟩
            | some u =>
                by_cases hu : u < timenow
                · obtain ⟨Δ, hΔ⟩ := ih rest timenow dataset (o.state.getD lv) lv
                  exact ⟨Δ, by simp only [pdLoop, if_pos htime, hlu, if_pos hu]; exact hΔ⟩
                · obtain ⟨Δ, hΔ⟩ := ih (o :: rest) (timenow + period)
                    (dataset ++ [⟨timenow,
                      if inc = true then max (o.state.getD lv - lv) 0 else o.state.getD lv⟩])
                    (o.state.getD lv) (o.state.getD lv)
                  refine ⟨(⟨timenow,
                    if inc = true then max (o.state.getD lv - lv) 0
                    else o.state.getD lv⟩ : Sample) :: Δ, ?_⟩
                  simp only [pdLoop, if_pos htime, hlu, if_neg hu]
                  rw [hΔ, List.append_assoc]
                  rfl
          · exact ⟨[], by simp [pdLoop, if_neg htime]⟩

theorem pdLoop_subst (period end_time : ℤ) (inc : Bool) (lu : Option ℤ)
    (rest : List RawObs) (lv : ℚ) :
    ∀ (fuel : ℕ) (tn : ℤ) (ds : List Sample) (v : ℚ),
      pdLoop period end_time inc fuel (⟨none, lu⟩ :: rest) tn ds v lv =
        pdLoop period end_time inc fuel (⟨some lv, lu⟩ :: rest) tn ds v lv := by
  intro fuel
  induction fuel with
  | zero => intro tn ds v; rfl
  | succ n ih =>
      intro tn ds v
      by_cases htn : tn < end_time
      · cases lu with
        | none =>
            simp only [pdLoop, if_pos htn, Option.getD_none, Option.getD_some]
        | some u =>
            by_cases hu : u < tn
            · simp only [pdLoop, if_pos htn, if_pos hu, Option.getD_none, Option.getD_some]
            · simp only [pdLoop, if_pos htn, if_neg hu, Option.getD_none, Option.getD_some]
              exact ih (tn + period)
                (ds ++ [⟨tn, if inc = true then max (lv - lv) 0 else lv⟩]) lv
      · simp only [pdLoop, if_neg htn]

theorem pdLoop_skip_one (period end_time : ℤ) (inc : Bool) (k : ℕ) (o : RawObs)
    (rest : List RawObs) (timenow : ℤ) (dataset : List Sample) (value lv : ℚ) (u : ℤ)
    (htime : timenow < end_time) (hlu : o.last_updated = some u) (hu : u < timenow) :
    pdLoop period end_time inc (k + 1) (o :: rest) timenow dataset value lv =
      pdLoop period end_time inc k rest timenow dataset (o.state.getD lv) lv := by
  simp only [pdLoop, if_pos htime, hlu, if_pos hu]

theorem pdLoop_emit_false (period end_time : ℤ) (k : ℕ) (oi : RawObs)
    (rest : List RawObs) (timenow : ℤ) (dataset : List Sample) (value lv : ℚ) (u : ℤ)
    (htime : timenow < end_time) (hlu : oi.last_updated = some u) (hu : ¬u < timenow) :
    pdLoop period end_time false (k + 1) (oi :: rest) timenow dataset value lv =
      pdLoop period end_time false k (oi :: rest) (timenow + period)
        (dataset ++ [⟨timenow, oi.state.getD lv⟩]) (oi.state.getD lv) (oi.state.getD lv) := by
  simp only [pdLoop, if_pos htime, hlu, if_neg hu, Bool.false_eq_true, if_false]

/-! ## Helper lemmas about the store_history loop -/

theorem storeGo_prev_extends (pv : List ℤ) :
    ∀ (hist table prev t2 p2 : List Sample),
      storeGo pv hist table prev = .ok (t2, p2) → ∃ Δ, p2 = prev ++ Δ := by
  intro hist
  induction hist with
  | nil =>
      intro table prev t2 p2 h
      simp only [storeGo, Except.ok.injEq, Prod.mk.injEq] at h
      exact ⟨[], by simp [h.2.symm]⟩
  | cons r rest ih =>
      intro table prev t2 p2 h
      simp only [storeGo] at h
      by_cases hr : r.ds ∈ pv
      · rw [if_pos hr] at h
        exact ih table prev t2 p2 h
      · rw [if_neg hr] at h
        cases hins : insertRow table r.ds r.y with
        | error e => rw [hins] at h; exact absurd h (by simp)
        | ok table2 =>
            rw [hins] at h
            obtain ⟨Δ, hΔ⟩ := ih table2 (prev ++ [r]) t2 p2 h
            exact ⟨r :: Δ, by simp [hΔ]⟩

theorem storeGo_covers (pv : List ℤ) :
    ∀ (hist table prev t2 p2 : List Sample),
      storeGo pv hist table prev = .ok (t2, p2) →
      ∀ r ∈ hist, r.ds ∈ pv ∨ r.ds ∈ p2.map Sample.ds := by
  intro hist
  induction hist with
  | nil => intro table prev t2 p2 _ r hr; exact absurd hr (by simp)
  | cons q rest ih =>
      intro table prev t2 p2 h r hr
      simp only [storeGo] at h
      by_cases hq : q.ds ∈ pv
      · rw [if_pos hq] at h
        rcases List.mem_cons.mp hr with hrq | hrr
        · exact Or.inl (hrq ▸ hq)
        · exact ih table prev t2 p2 h r hrr
      · rw [if_neg hq] at h
        cases hins : insertRow table q.ds q.y with
        | error e => rw [hins] at h; exact absurd h (by simp)
        | ok table2 =>
            rw [hins] at h
            rcases List.mem_cons.mp hr with hrq | hrr
            · obtain ⟨Δ, hΔ⟩ := storeGo_prev_extends pv rest table2 (prev ++ [q]) t2 p2 h
              subst hrq
              refine Or.inr ?_
              simp [hΔ]
            · exact ih table2 (prev ++ [q]) t2 p2 h r hrr

theorem storeGo_skip_all (pv : List ℤ) :
    ∀ (hist table prev : List Sample), (∀ r ∈ hist, r.ds ∈ pv) →
      storeGo pv hist table prev = .ok (table, prev) := by
  intro hist
  induction hist with
  | nil => intro table prev _; rfl
  | cons r rest ih =>
      intro table prev hall
      have hr : r.ds ∈ pv := hall r (by simp)
      simp only [storeGo, if_pos hr]
      exact ih table prev fun q hq => hall q (by simp [hq])

theorem storeGo_ok_of_nodup :
    ∀ (hist : List Sample) (pv E : List ℤ) (table prev : List Sample),
      (table.map Sample.ds).Nodup →
      (∀ t, t ∈ table.map Sample.ds ↔ (t ∈ pv ∨ t ∈ E)) →
      ((hist.filter fun r => decide (r.ds ∉ pv)).map Sample.ds).Nodup →
      (∀ r ∈ hist, r.ds ∉ pv → r.ds ∉ E) →
      ∃ t2 p2, storeGo pv hist table prev = .ok (t2, p2) ∧
        (t2.map Sample.ds).Nodup ∧
        ∀ t, t ∈ t2.map Sample.ds ↔ (t ∈ pv ∨ t ∈ E ∨ t ∈ hist.map Sample.ds) := by
  intro hist
  induction hist with
  | nil =>
      intro pv E table prev h1 h2 _ _
      exact ⟨table, prev, rfl, h1, fun t => by simpa using h2 t⟩
  | cons r rest ih =>
      intro pv E table prev h1 h2 h3 h4
      by_cases hr : r.ds ∈ pv
      · have hfil : ((r :: rest).filter fun q => decide (q.ds ∉ pv)) =
            rest.filter fun q => decide (q.ds ∉ pv) := by
          simp [List.filter_cons, hr]
        rw [hfil] at h3
        obtain ⟨t2, p2, heq, hnd, hcov⟩ :=
          ih pv E table prev h1 h2 h3 (fun q hq => h4 q (by simp [hq]))
        refine ⟨t2, p2, ?_, hnd, ?_⟩
        · simp only [storeGo, if_pos hr]; exact heq
        · intro t
          rw [hcov t]
          simp only [List.map_cons, List.mem_cons]
          constructor
          · tauto
          · rintro (h | h | (h | h)) <;> [tauto; tauto; (exact Or.inl (h ▸ hr)); tauto]
      · have hrE : r.ds ∉ E := h4 r (by simp) hr
        have hrtable : r.ds ∉ table.map Sample.ds := fun hmem =>
          (((h2 r.ds).mp hmem).elim hr hrE)
        have hins : insertRow table r.ds r.y = .ok (table ++ [Sample.mk r.ds r.y]) := by
          have hany : (table.any fun x => x.ds == r.ds) = false := by
            rw [List.any_eq_false]
            intro x hx
            simp only [beq_iff_eq]
            intro hxds
            exact hrtable (hxds ▸ List.mem_map_of_mem Sample.ds hx)
          simp [insertRow, hany]
        have hfil : ((r :: rest).filter fun q => decide (q.ds ∉ pv)) =
            r :: rest.filter fun q => decide (q.ds ∉ pv) := by
          simp [List.filter_cons, hr]
        rw [hfil] at h3
        simp only [List.map_cons, List.nodup_cons] at h3
        obtain ⟨hrrest, h3rest⟩ := h3
        have h1' : ((table ++ [Sample.mk r.ds r.y]).map Sample.ds).Nodup := by
          simp only [List.map_append, List.map_cons, List.map_nil]
          exact List.Nodup.append h1 (List.nodup_singleton _)
            (by intro a ha hb; simp at hb; exact hrtable (hb ▸ ha))
        have h2' : ∀ t, t ∈ (table ++ [Sample.mk r.ds r.y]).map Sample.ds ↔
            (t ∈ pv ∨ t ∈ E ++ [r.ds]) := by
          intro t
          simp only [List.map_append, List.map_cons, List.map_nil, List.mem_append,
            List.mem_singleton]
          rw [h2 t]
          tauto
        have h4' : ∀ q ∈ rest, q.ds ∉ pv → q.ds ∉ E ++ [r.ds] := by
          intro q hq hqpv
          simp only [List.mem_append, List.mem_singleton]
          rintro (hE | hEr)
          · exact h4 q (by simp [hq]) hqpv hE
          · refine hrrest ?_
            rw [← hEr]
            refine List.mem_map_of_mem Sample.ds ?_
            rw [List.mem_filter]
            exact ⟨hq, by simpa using hqpv⟩
        obtain ⟨t2, p2, heq, hnd, hcov⟩ :=
          ih pv (E ++ [r.ds]) (table ++ [Sample.mk r.ds r.y]) (prev ++ [r]) h1' h2' h3rest h4'
        refine ⟨t2, p2, ?_, hnd, ?_⟩
        · simp only [storeGo, if_neg hr, hins]; exact heq
        · intro t
          rw [hcov t]
          simp only [List.mem_append, List.mem_singleton, List.map_cons, List.mem_cons]
          tauto

theorem dlookup_skip (k : ℤ) :
    ∀ (m : List (ℤ × ℚ)) (acc : Option ℚ), k ∉ m.map Prod.fst →
      m.foldl (fun acc p => if p.1 = k then some p.2 else acc) acc = acc := by
  intro m
  induction m with
  | nil => intro acc _; rfl
  | cons p rest ih =>
      intro acc hk
      simp only [List.map_cons, List.mem_cons] at hk
      push_neg at hk
      rw [List.foldl_cons, if_neg fun h => hk.1 h.symm]
      exact ih acc hk.2

theorem dlookup_last (m1 m2 : List (ℤ × ℚ)) (k : ℤ) (v : ℚ)
    (hk : k ∉ m2.map Prod.fst) :
    dlookup (m1 ++ (k, v) :: m2) k = some v := by
  simp only [dlookup, List.foldl_append, List.foldl_cons, if_pos rfl]
  exact dlookup_skip k m2 _ hk

theorem sp_step_reset (now : ℤ) (s : SPState) (p : FPoint)
    (h1 : p.ds ≤ now) (h2 : isMidnight p.ds = true) :
    (sp_step now true true s p).total = p.yhat1 ∧
      (sp_step now true true s p).timeseries = s.timeseries ++ [(p.ds, round2 p.yhat1)] := by
  have ht : now + (p.ds - now) = p.ds := by ring
  have hc : p.ds ≤ now ∧ True ∧ isMidnight p.ds = true := ⟨h1, trivial, h2⟩
  constructor <;> simp only [sp_step, ht, if_pos hc] <;> simp

theorem sp_step_noreset (now : ℤ) (s : SPState) (p : FPoint)
    (h : ¬(p.ds ≤ now ∧ isMidnight p.ds = true)) :
    (sp_step now true true s p).total = s.total + p.yhat1 ∧
      (sp_step now true true s p).timeseries =
        s.timeseries ++ [(p.ds, round2 (s.total + p.yhat1))] := by
  have ht : now + (p.ds - now) = p.ds := by ring
  have hc : ¬(p.ds ≤ now ∧ True ∧ isMidnight p.ds = true) := by tauto
  constructor <;> simp only [sp_step, ht, if_neg hc] <;> simp

theorem sp_run_noreset (now : ℤ) :
    ∀ (l : List FPoint) (s : SPState),
      (∀ q ∈ l, ¬(q.ds ≤ now ∧ isMidnight q.ds = true)) →
      (l.foldl (sp_step now true true) s).total = s.total + (l.map FPoint.yhat1).sum ∧
        ∃ Δ, (l.foldl (sp_step now true true) s).timeseries = s.timeseries ++ Δ ∧
          Δ.map Prod.fst = l.map FPoint.ds := by
  intro l
  induction l with
  | nil => intro s _; exact ⟨by simp, [], by simp, by simp⟩
  | cons p rest ih =>
      intro s hl
      obtain ⟨ht, hts⟩ := sp_step_noreset now s p (hl p (by simp))
      obtain ⟨htot, Δ, hΔ, hk⟩ :=
        ih (sp_step now true true s p) fun q hq => hl q (by simp [hq])
      refine ⟨?_, (p.ds, round2 (s.total + p.yhat1)) :: Δ, ?_, by simp [hk]⟩
      · rw [List.foldl_cons, htot, ht, List.map_cons, List.sum_cons]
        ring
      · rw [List.foldl_cons, hΔ, hts]
        simp

/-! ## Claim theorems -/

/-- Claim C1, counterexample.  The claim predicts samples
`[(08:00, 5.0), (08:30, 8.0)]` for the resampler example; the code returns
`[(08:00, 5.0), (08:30, 12.0)]`, because after emitting a grid point the raw
cursor is not advanced and the value emitted at a grid point is the value of
the first remaining observation whose timestamp is at or after that grid
point, not the last one at or before it. -/
theorem process_dataset_example_ne_spec :
    process_dataset obsC1 480 540 30 false = .ok ([⟨480, 5⟩, ⟨510, 12⟩], 12) ∧
      ([⟨480, 5⟩, ⟨510, 12⟩] : List Sample) ≠ [⟨480, 5⟩, ⟨510, 8⟩] := by
  exact ⟨rfl, by decide⟩

/-- Claim C1, amended.  For the Resampler called with interval 30, the raw
observations of the example, counter false, start 08:00 and end 09:00, the
output series is exactly `[(08:00, 5.0), (08:30, 12.0)]` and the returned last
value is 12: the value emitted at each grid point is the value of the first
remaining observation whose timestamp is at or after that grid point. -/
theorem process_dataset_example_run :
    process_dataset obsC1 480 540 30 false = .ok ([⟨480, 5⟩, ⟨510, 12⟩], 12) := rfl

/-- Claim C2, counterexample.  `save_prediction` publishes each forecast point
under its own `ds` instant: for the forecast `predC2` with `now = 100` the
published keys are 0 and 30, while the claim predicts the key
`now + (ds - modelOrigin) = 100 + (0 - 30) = 70` for the first point; no entry
exists at 70. -/
theorem save_prediction_reanchor_counterexample :
    specModelOrigin predC2 = some 30 ∧
      (save_prediction predC2 100 false false).timeseries.map Prod.fst = [0, 30] ∧
      dlookup (save_prediction predC2 100 false false).timeseries (100 + (0 - 30)) = none ∧
      (100 + ((0 : ℤ) - 30) ≠ 0) := by
  exact ⟨rfl, rfl, rfl, by decide⟩

/-- Claim C2, amended.  For every forecast point processed by
`save_prediction`, the timestamp under which the point is published equals
`now + (point.ds - now) = point.ds`: the difference is taken against the real
current time itself, so the published keys are exactly the forecast `ds`
instants in order and no model-origin re-anchoring takes place. -/
theorem save_prediction_keys_eq_ds (pred : List FPoint) (now : ℤ)
    (incrementing reset_daily : Bool) :
    (save_prediction pred now incrementing reset_daily).timeseries.map Prod.fst =
      pred.map FPoint.ds := by
  obtain ⟨Δ, hΔ, hk⟩ :=
    sp_run_keys now incrementing reset_daily pred ⟨0, 0, none, [], []⟩
  simp only [save_prediction, hΔ]
  simpa using hk

/-- Claim C3, counterexample.  In counter mode the delta baseline is
initialized by `float(new_data[0]["state"])` outside any handler, so an
observation whose state does not parse does make `process_dataset` raise when
it is the first one: the claim fails in counter mode. -/
theorem process_dataset_first_unparseable_raises :
    process_dataset [⟨none, some 0⟩] 0 30 30 true = .error .valueError := rfl

/-- Claim C4, counterexample.  A timestamp repeated within the new series
itself is not deduplicated: `prev_values` is snapshotted before the loop, so
the second row with `ds = 0` reaches the INSERT and violates the primary key,
raising IntegrityError after the first row was already written. -/
theorem store_history_internal_dup_raises :
    store_history [] [⟨0, 1⟩, ⟨0, 2⟩] (some []) = .error (.integrityError, [⟨0, 1⟩]) := rfl

/-- Appending one element per input in a left fold is a map. -/
theorem foldl_append_singleton_eq_map {α β : Type} (g : α → β) :
    ∀ (l : List α) (acc : List β),
      l.foldl (fun out row => out ++ [g row]) acc = acc ++ l.map g := by
  intro l
  induction l with
  | nil => simp
  | cons a rest ih => intro acc; simp [List.foldl_cons, ih]

/-- Claim C8.  `subtract_set` emits exactly one sample per minuend sample, in
minuend order: the output is the map sending each minuend row to its `ds`
paired with `max(y - sub, 0)` in counter mode and `y - sub` otherwise, where
`sub` is the subtrahend value at that `ds` and 0 when no exact match exists.
In particular the worked example holds, and subtracting an empty series in
non-counter mode is the identity. -/
theorem subtract_set_spec :
    (∀ (dataset subset : List Sample) (now : ℤ) (incrementing : Bool),
        subtract_set dataset subset now incrementing =
          dataset.map fun row =>
            ⟨row.ds, specSubtractValue incrementing row.y (specSubtrahendValue subset row.ds)⟩) ∧
      subtract_set [⟨1, 10⟩, ⟨2, 20⟩] [⟨1, 4⟩] 0 true = [⟨1, 6⟩, ⟨2, 20⟩] ∧
      ∀ (S : List Sample) (now : ℤ), subtract_set S [] now false = S := by
  have hmap : ∀ (dataset subset : List Sample) (now : ℤ) (incrementing : Bool),
      subtract_set dataset subset now incrementing =
        dataset.map fun row =>
          ⟨row.ds, specSubtractValue incrementing row.y (specSubtrahendValue subset row.ds)⟩ := by
    intro dataset subset now incrementing
    exact foldl_append_singleton_eq_map _ dataset []
  refine ⟨hmap, ?_, ?_⟩
  · rw [hmap]
    simp [specSubtractValue, specSubtrahendValue]
    norm_num
  · intro S now
    rw [hmap]
    have hid : ∀ r : Sample,
        (⟨r.ds, specSubtractValue false r.y (specSubtrahendValue [] r.ds)⟩ : Sample) = r := by
      intro r
      cases r with
      | mk d v => simp [specSubtractValue, specSubtrahendValue]
    calc S.map (fun row =>
            (⟨row.ds, specSubtractValue false row.y (specSubtrahendValue [] row.ds)⟩ : Sample))
        = S.map id := List.map_congr_left fun a _ => hid a
      _ = S := List.map_id S

/-- Claim C3, amended.  In non-counter mode an unparseable observation state
never makes `process_dataset` raise: the last valid parsed value is
substituted (carry-forward), and when no numeric value was ever parsed the
returned last value is zero and every emitted sample is zero.  In counter
mode the same recovery applies from the second observation on, but only when
the first observation state parses (the baseline initialization is outside
the handler, see the counterexample).  The substitution is characterized in
two ways: at any reachable loop state, in both modes and at every position,
an observation whose state fails to parse is processed exactly as if its
state read the current `last_value` (the last successfully parsed value, or
the mode's initial baseline when none was parsed yet); and in an observable
run, an unparseable observation one grid step after a parsed value `v` is
emitted with value `v` itself — not zero and not dropped. -/
theorem process_dataset_parse_failure_recovery (new_data : List RawObs) (st et per : ℤ) :
    (process_dataset new_data st et per false).isOk = true ∧
      ((∀ o ∈ new_data, o.state = none) →
        (process_dataset new_data st et per false).map
            (fun r => (r.1.filter fun s => !(decide (s.y = 0)), r.2)) = .ok ([], 0)) ∧
      (∀ (o : RawObs) (rest : List RawObs) (v0 : ℚ),
        new_data = o :: rest → o.state = some v0 →
        (process_dataset new_data st et per true).isOk = true) ∧
      (∀ (inc : Bool) (lu : Option ℤ) (rest : List RawObs) (lv : ℚ) (fuel : ℕ) (tn : ℤ)
          (ds : List Sample) (v : ℚ),
        pdLoop per et inc fuel (⟨none, lu⟩ :: rest) tn ds v lv =
          pdLoop per et inc fuel (⟨some lv, lu⟩ :: rest) tn ds v lv) ∧
      (∀ v : ℚ, st < et → 0 < per → st + per < et →
        (process_dataset [⟨some v, some st⟩, ⟨none, some (st + per)⟩] st et per false).map
            (fun r => r.1.take 2) = .ok [⟨st, v⟩, ⟨st + per, v⟩]) := by
  refine ⟨rfl, ?_, ?_, ?_, ?_⟩
  · intro hall
    have h := pdLoop_allnone per et false
      (new_data.length + (et - st).toNat + 1) new_data st [] hall (by simp)
    have hfil : (pdLoop per et false (new_data.length + (et - st).toNat + 1)
        new_data st [] 0 0).1.filter (fun s => !(decide (s.y = 0))) = [] := by
      rw [List.filter_eq_nil_iff]
      intro s hs
      simp [h.1 s hs]
    show Except.map _ (Except.ok _) = _
    simp only [Except.map, hfil, h.2]
  · intro o rest v0 hnd ho
    subst hnd
    simp only [process_dataset, ho, if_true]
    rfl
  · intro inc lu rest lv fuel tn ds v
    exact pdLoop_subst per et inc lu rest lv fuel tn ds v
  · intro v hst hper h2
    have hne : ¬st < st := lt_irrefl st
    have hne2 : ¬st + per < st + per := lt_irrefl _
    have hlt : st < st + per := by omega
    have hpd : process_dataset [⟨some v, some st⟩, ⟨none, some (st + per)⟩] st et per false =
        .ok (pdLoop per et false ((((et - st).toNat + 1) + 1) + 1)
          [⟨some v, some st⟩, ⟨none, some (st + per)⟩] st [] 0 0) := by
      have hlen : ([⟨some v, some st⟩, ⟨none, some (st + per)⟩] : List RawObs).length +
          (et - st).toNat + 1 = (((et - st).toNat + 1) + 1) + 1 := by
        simp only [List.length_cons, List.length_nil]
        omega
      rw [show process_dataset [⟨some v, some st⟩, ⟨none, some (st + per)⟩] st et per false =
          .ok (pdLoop per et false
            (([⟨some v, some st⟩, ⟨none, some (st + per)⟩] : List RawObs).length +
              (et - st).toNat + 1)
            [⟨some v, some st⟩, ⟨none, some (st + per)⟩] st [] 0 0) from rfl, hlen]
    rw [hpd]
    have step1 : pdLoop per et false ((((et - st).toNat + 1) + 1) + 1)
        [⟨some v, some st⟩, ⟨none, some (st + per)⟩] st [] 0 0 =
        pdLoop per et false (((et - st).toNat + 1) + 1)
          [⟨some v, some st⟩, ⟨none, some (st + per)⟩] (st + per) [⟨st, v⟩] v v := by
      rw [pdLoop_emit_false per et (((et - st).toNat + 1) + 1) ⟨some v, some st⟩
        [⟨none, some (st + per)⟩] st [] 0 0 st hst rfl hne]
      simp only [Option.getD_some, List.nil_append]
    have step2 : pdLoop per et false (((et - st).toNat + 1) + 1)
        [⟨some v, some st⟩, ⟨none, some (st + per)⟩] (st + per) [⟨st, v⟩] v v =
        pdLoop per et false ((et - st).toNat + 1)
          [⟨none, some (st + per)⟩] (st + per) [⟨st, v⟩] v v := by
      rw [pdLoop_skip_one per et false ((et - st).toNat + 1) ⟨some v, some st⟩
        [⟨none, some (st + per)⟩] (st + per) [⟨st, v⟩] v v st h2 rfl hlt]
      simp only [Option.getD_some]
    have step3 : pdLoop per et false ((et - st).toNat + 1)
        [⟨none, some (st + per)⟩] (st + per) [⟨st, v⟩] v v =
        pdLoop per et false ((et - st).toNat)
          [⟨none, some (st + per)⟩] (st + per + per) [⟨st, v⟩, ⟨st + per, v⟩] v v := by
      rw [pdLoop_emit_false per et ((et - st).toNat) ⟨none, some (st + per)⟩
        [] (st + per) [⟨st, v⟩] v v (st + per) h2 rfl hne2]
      simp only [Option.getD_none]
      rfl
    rw [step1, step2, step3]
    obtain ⟨Δ, hΔ⟩ := pdLoop_extends per et false ((et - st).toNat)
      [⟨none, some (st + per)⟩] (st + per + per) [⟨st, v⟩, ⟨st + per, v⟩] v v
    simp only [Except.map, hΔ]
    rw [List.cons_append, List.cons_append, List.nil_append]
    rfl

/-- Claim C3, amended, witness: a single unparseable observation in
non-counter mode yields a successful run with an all-zero series and last
value 0; a counter-mode run whose first state parses succeeds; an unparseable
observation at the cursor is processed exactly as one carrying the current
last valid value 9; and the run over a parsed 5 followed by an unparseable
state emits both grid samples with the carried-forward value 5. -/
theorem process_dataset_parse_failure_recovery_witness :
    (process_dataset [⟨none, some 0⟩] 0 30 30 false).isOk = true ∧
      (process_dataset [⟨none, some 0⟩] 0 30 30 false).map
          (fun r => (r.1.filter fun s => !(decide (s.y = 0)), r.2)) = .ok ([], 0) ∧
      (process_dataset [⟨some 2, some 0⟩] 0 30 30 true).isOk = true ∧
      (pdLoop 30 30 false 5 [⟨none, some 0⟩] 0 [] 7 9 =
        pdLoop 30 30 false 5 [⟨some 9, some 0⟩] 0 [] 7 9) ∧
      (process_dataset [⟨some 5, some 0⟩, ⟨none, some (0 + 30)⟩] 0 90 30 false).map
          (fun r => r.1.take 2) = .ok [⟨0, 5⟩, ⟨0 + 30, 5⟩] := by
  obtain ⟨h1, h2, _, h4, _⟩ := process_dataset_parse_failure_recovery [⟨none, some 0⟩] 0 30 30
  obtain ⟨_, _, h3, _, _⟩ := process_dataset_parse_failure_recovery [⟨some 2, some 0⟩] 0 30 30
  obtain ⟨_, _, _, _, h5⟩ := process_dataset_parse_failure_recovery [] 0 90 30
  exact ⟨h1, h2 (by decide), h3 ⟨some 2, some 0⟩ [] 2 rfl rfl,
    h4 false (some 0) [] 9 5 0 [] 7,
    h5 5 (by decide) (by decide) (by decide)⟩

/-- Claim C6.  With `counter = true` and `resetDaily = true`, a forecast point
`pi` at or before `now` that falls exactly on a day boundary zeroes the
running totals immediately before being accumulated, so its published
cumulative value is its own rounded predicted value alone; every later point
`pj` accumulates on top of that reset, provided no point between them again
satisfies the reset condition `ds ≤ now and midnight` — in particular a point
strictly after `now` never triggers a reset even when it falls on a midnight,
since it fails `ds ≤ now` and is admitted by the in-between hypothesis. -/
theorem save_prediction_daily_reset
    (A M C : List FPoint) (pi pj : FPoint) (now : ℤ)
    (hpile : pi.ds ≤ now) (hpimid : isMidnight pi.ds = true)
    (hM : ∀ q ∈ M, ¬(q.ds ≤ now ∧ isMidnight q.ds = true))
    (hpj : ¬(pj.ds ≤ now ∧ isMidnight pj.ds = true))
    (hpiM : pi.ds ∉ M.map FPoint.ds) (hpij : pi.ds ≠ pj.ds)
    (hpiC : pi.ds ∉ C.map FPoint.ds) (hpjC : pj.ds ∉ C.map FPoint.ds) :
    dlookup (save_prediction (A ++ pi :: (M ++ pj :: C)) now true true).timeseries pi.ds
        = some (round2 pi.yhat1) ∧
      dlookup (save_prediction (A ++ pi :: (M ++ pj :: C)) now true true).timeseries pj.ds
        = some (round2 (pi.yhat1 + (M.map FPoint.yhat1).sum + pj.yhat1)) := by
  have hsplit : ∀ s0 : SPState,
      (A ++ pi :: (M ++ pj :: C)).foldl (sp_step now true true) s0 =
        C.foldl (sp_step now true true)
          (sp_step now true true
            (M.foldl (sp_step now true true)
              (sp_step now true true (A.foldl (sp_step now true true) s0) pi)) pj) := by
    intro s0
    rw [List.foldl_append, List.foldl_cons, List.foldl_append, List.foldl_cons]
  set s0 : SPState := (⟨0, 0, none, [], []⟩ : SPState) with hs0
  set sa := A.foldl (sp_step now true true) s0 with hsa
  obtain ⟨h1tot, h1ts⟩ := sp_step_reset now sa pi hpile hpimid
  set s1 := sp_step now true true sa pi with hs1
  obtain ⟨h2tot, ΔM, hΔM, hkM⟩ := sp_run_noreset now M s1 hM
  set s2 := M.foldl (sp_step now true true) s1 with hs2
  obtain ⟨h3tot, h3ts⟩ := sp_step_noreset now s2 pj hpj
  set s3 := sp_step now true true s2 pj with hs3
  obtain ⟨ΔC, hΔC, hkC⟩ := sp_run_keys now true true C s3
  have hts : (save_prediction (A ++ pi :: (M ++ pj :: C)) now true true).timeseries =
      sa.timeseries ++ ((pi.ds, round2 pi.yhat1) ::
        (ΔM ++ ((pj.ds, round2 (pi.yhat1 + (M.map FPoint.yhat1).sum + pj.yhat1)) :: ΔC))) := by
    show ((A ++ pi :: (M ++ pj :: C)).foldl (sp_step now true true) s0).timeseries = _
    rw [hsplit s0, ← hsa, ← hs1, ← hs2, ← hs3, hΔC, h3ts, hΔM, h1ts]
    rw [h2tot, h1tot]
    simp [List.append_assoc]
  constructor
  · rw [hts]
    exact dlookup_last _ _ _ _ (by
      simp only [List.map_append, List.map_cons, List.mem_append, List.mem_cons, hkM, hkC]
      push_neg
      exact ⟨fun hmem => hpiM (hkM ▸ hmem), hpij, fun hmem => hpiC (hkC ▸ hmem)⟩)
  · have hts2 : (save_prediction (A ++ pi :: (M ++ pj :: C)) now true true).timeseries =
        (sa.timeseries ++ ((pi.ds, round2 pi.yhat1) :: ΔM)) ++
          ((pj.ds, round2 (pi.yhat1 + (M.map FPoint.yhat1).sum + pj.yhat1)) :: ΔC) := by
      rw [hts]
      simp [List.append_assoc]
    rw [hts2]
    exact dlookup_last _ _ _ _ (fun hmem => hpjC (hkC ▸ hmem))

/-- Claim C6, witness: for the forecast `[(0, 5), (30, 7)]` with `now = 0`,
both points counted and the first on the midnight instant 0, the published
cumulative value at 0 is `round2 5` and the one at 30 is the accumulation
`round2 (5 + 0 + 7)` on top of the reset. -/
theorem save_prediction_daily_reset_witness :
    dlookup (save_prediction [⟨0, 5, none⟩, ⟨30, 7, none⟩] 0 true true).timeseries 0
        = some (round2 5) ∧
      dlookup (save_prediction [⟨0, 5, none⟩, ⟨30, 7, none⟩] 0 true true).timeseries 30
        = some (round2 (5 + 0 + 7)) :=
  save_prediction_daily_reset [] [] [] ⟨0, 5, none⟩ ⟨30, 7, none⟩ 0
    (by decide) (by decide) (by simp) (by decide) (by simp) (by decide) (by simp) (by simp)

/-- Claim C7.  In counter mode every sample emitted by `process_dataset` and
every sample emitted by `subtract_set` has a value that is at least 0, for
every input. -/
theorem counter_outputs_nonneg :
    (∀ (new_data : List RawObs) (st et per : ℤ) (ds : List Sample) (v : ℚ),
        process_dataset new_data st et per true = .ok (ds, v) → ∀ s ∈ ds, 0 ≤ s.y) ∧
      ∀ (dataset subset : List Sample) (now : ℤ),
        ∀ s ∈ subtract_set dataset subset now true, 0 ≤ s.y := by
  constructor
  · intro nd st et per ds v h s hs
    cases nd with
    | nil => exact absurd h (by simp [process_dataset])
    | cons o rest =>
        cases ho : o.state with
        | none => rw [show process_dataset (o :: rest) st et per true = .error .valueError
              from by simp [process_dataset, ho]] at h
                  exact absurd h (by simp)
        | some v0 =>
            rw [show process_dataset (o :: rest) st et per true =
                .ok (pdLoop per et true ((o :: rest).length + (et - st).toNat + 1)
                  (o :: rest) st [] 0 v0) from by simp [process_dataset, ho]] at h
            simp only [Except.ok.injEq] at h
            have hds : ds = (pdLoop per et true ((o :: rest).length + (et - st).toNat + 1)
                (o :: rest) st [] 0 v0).1 := by
              rw [h]
            rw [hds] at hs
            exact pdLoop_nonneg per et _ (o :: rest) st [] 0 v0 (by simp) s hs
  · intro dataset subset now s hs
    have hmap : subtract_set dataset subset now true =
        dataset.map fun row =>
          (⟨row.ds,
            max (row.y - ((subset.find? fun c => c.ds == row.ds).map Sample.y).getD 0) 0⟩ :
            Sample) :=
      foldl_append_singleton_eq_map _ dataset []
    rw [hmap] at hs
    obtain ⟨r, _, hr⟩ := List.mem_map.mp hs
    rw [← hr]
    exact le_max_right _ _

/-- Claim C7, witness: the counter-mode resample of a single observation and
the counter-mode subtraction of an empty subtrahend both emit their (floored)
samples, whose values are at least 0. -/
theorem counter_outputs_nonneg_witness :
    (0 : ℚ) ≤ (Sample.mk 0 (max ((3 : ℚ) - 3) 0)).y ∧
      (0 : ℚ) ≤ (Sample.mk 5 (max ((2 : ℚ) - 0) 0)).y := by
  constructor
  · exact counter_outputs_nonneg.1 [⟨some 3, some 0⟩] 0 30 30
      [⟨0, max ((3 : ℚ) - 3) 0⟩] 3 rfl _ (List.mem_singleton.mpr rfl)
  · exact counter_outputs_nonneg.2 [⟨5, 2⟩] [] 0 _ (List.mem_singleton.mpr rfl)

/-- Claim C9.  In counter mode the delta baseline starts at the parsed state
of the very first raw observation: when the grid walk skips a (possibly
empty) prefix of observations with unparseable or too-early timestamps and
then emits its first sample at the normalized start instant, that sample's
value is `max(v - v0, 0)` where `v0` parses the first observation state and
`v` is the value in hand at the emitting observation (its parse, or `v0`
carried forward on failure): the first delta is measured against the start of
the history window, not against zero. -/
theorem process_dataset_first_delta_baseline
    (pre : List RawObs) (oi : RawObs) (rest : List RawObs)
    (st et per : ℤ) (v0 : ℚ) (u : ℤ)
    (hhead : ((pre ++ oi :: rest).head?.bind RawObs.state) = some v0)
    (hpre : ∀ o ∈ pre, o.last_updated = none ∨ ∃ w, o.last_updated = some w ∧ w < st)
    (hlu : oi.last_updated = some u) (hst : st ≤ u) (het : st < et) :
    (process_dataset (pre ++ oi :: rest) st et per true).map (fun r => r.1.head?) =
      .ok (some ⟨st, max (oi.state.getD v0 - v0) 0⟩) := by
  have hu : ¬u < st := not_lt.mpr hst
  cases pre with
  | nil =>
      have ho : oi.state = some v0 := by simpa using hhead
      rw [show process_dataset ([] ++ oi :: rest) st et per true =
          .ok (pdLoop per et true ((oi :: rest).length + (et - st).toNat + 1)
            (oi :: rest) st [] 0 v0) from by simp [process_dataset, ho]]
      rw [pdLoop_emit per et ((oi :: rest).length + (et - st).toNat) oi rest st [] 0 v0 u
        het hlu hu]
      obtain ⟨Δ, hΔ⟩ := pdLoop_extends per et true ((oi :: rest).length + (et - st).toNat)
        (oi :: rest) (st + per) [⟨st, max (oi.state.getD v0 - v0) 0⟩]
        (oi.state.getD v0) (oi.state.getD v0)
      simp only [Except.map, hΔ, List.nil_append]
      rw [List.cons_append]
      rfl
  | cons o0 pre2 =>
      have ho0 : o0.state = some v0 := by simpa using hhead
      rw [show process_dataset ((o0 :: pre2) ++ oi :: rest) st et per true =
          .ok (pdLoop per et true (((o0 :: pre2) ++ oi :: rest).length + (et - st).toNat + 1)
            ((o0 :: pre2) ++ oi :: rest) st [] 0 v0) from by
          simp only [List.cons_append, process_dataset, ho0, if_true]]
      have hfuel : ((o0 :: pre2) ++ oi :: rest).length + (et - st).toNat + 1 =
          ((oi :: rest).length + (et - st).toNat + 1) + (o0 :: pre2).length := by
        simp only [List.length_append, List.length_cons]
        omega
      rw [hfuel]
      obtain ⟨v2, hskip⟩ := pdLoop_skips per et true st het (o0 :: pre2)
        ((oi :: rest).length + (et - st).toNat + 1) (oi :: rest) [] 0 v0 hpre
      rw [hskip]
      rw [pdLoop_emit per et ((oi :: rest).length + (et - st).toNat) oi rest st [] v2 v0 u
        het hlu hu]
      obtain ⟨Δ, hΔ⟩ := pdLoop_extends per et true ((oi :: rest).length + (et - st).toNat)
        (oi :: rest) (st + per) [⟨st, max (oi.state.getD v0 - v0) 0⟩]
        (oi.state.getD v0) (oi.state.getD v0)
      simp only [Except.map, hΔ, List.nil_append]
      rw [List.cons_append]
      rfl

/-- Claim C9, witness: resampling the single observation of state 5 at
instant 0 in counter mode emits its first sample at the start with value
`max(5 - 5, 0)`. -/
theorem process_dataset_first_delta_baseline_witness :
    (process_dataset [⟨some 5, some 0⟩] 0 30 30 true).map (fun r => r.1.head?) =
      .ok (some ⟨0, max ((RawObs.mk (some 5) (some 0)).state.getD 5 - 5) 0⟩) :=
  process_dataset_first_delta_baseline [] ⟨some 5, some 0⟩ [] 0 30 30 5 0 rfl
    (by simp) rfl (by decide) (by decide)

/-- Claim C4, amended.  `store_history` deduplicates only against the prior
series: every row of the new series whose `ds` occurs in `priorSeries` is
silently skipped, and provided the new series repeats no `ds` outside the
prior (and the table rows match the prior, as they do when the prior was read
back from the table), the merge succeeds and the stored table then contains
every distinct timestamp of `newSeries ∪ priorSeries` exactly once.  A `ds`
repeated within the new series itself and absent from the prior is not
deduplicated and raises IntegrityError. -/
theorem store_history_dedup_merge (table history prior : List Sample)
    (h1 : (table.map Sample.ds).Nodup)
    (h2 : ∀ t, t ∈ table.map Sample.ds ↔ t ∈ prior.map Sample.ds)
    (h3 : ((history.filter fun r => decide (r.ds ∉ prior.map Sample.ds)).map Sample.ds).Nodup) :
    (store_history table history (some prior)).isOk = true ∧
      ∀ t2 p2, store_history table history (some prior) = .ok (t2, p2) →
        (t2.map Sample.ds).Nodup ∧
        ∀ t, t ∈ t2.map Sample.ds ↔ (t ∈ table.map Sample.ds ∨ t ∈ history.map Sample.ds) := by
  have h2' : ∀ t, t ∈ table.map Sample.ds ↔ (t ∈ prior.map Sample.ds ∨ t ∈ ([] : List ℤ)) := by
    intro t; simpa using h2 t
  obtain ⟨t2, p2, heq, hnd, hcov⟩ :=
    storeGo_ok_of_nodup history (prior.map Sample.ds) [] table prior h1 h2' h3
      (by simp)
  have hsh : store_history table history (some prior) = .ok (t2, p2) := heq
  constructor
  · rw [hsh]; rfl
  · intro t2' p2' h'
    rw [hsh] at h'
    simp only [Except.ok.injEq, Prod.mk.injEq] at h'
    obtain ⟨ht2, _⟩ := h'
    subst ht2
    refine ⟨hnd, fun t => ?_⟩
    rw [hcov t]
    have := h2 t
    simp only [List.not_mem_nil, false_or] at *
    tauto

/-- Claim C4, amended, witness: merging one fresh row into an empty table with
an empty prior succeeds, and the stored table holds timestamp 1 exactly
once. -/
theorem store_history_dedup_merge_witness :
    (store_history [] [⟨1, 2⟩] (some [])).isOk = true ∧
      (([⟨(1 : ℤ), (2 : ℚ)⟩] : List Sample).map Sample.ds).Nodup ∧
      ((1 : ℤ) ∈ ([⟨1, 2⟩] : List Sample).map Sample.ds ↔
        ((1 : ℤ) ∈ ([] : List Sample).map Sample.ds ∨
          (1 : ℤ) ∈ ([⟨1, 2⟩] : List Sample).map Sample.ds)) := by
  have h := store_history_dedup_merge [] [⟨1, 2⟩] [] (by simp) (by simp) (by simp)
  have h2 := h.2 [⟨1, 2⟩] [⟨1, 2⟩] rfl
  exact ⟨h.1, h2.1, h2.2 1⟩

/-- Claim C5.  Merging the same new series twice is idempotent: if the first
`store_history` returned table content `t1` and extended series `p1`, running
`store_history` again on `t1` with the same new series and prior `p1` changes
nothing and returns the same pair. -/
theorem store_history_idempotent (table new prior t1 p1 : List Sample)
    (h : store_history table new (some prior) = .ok (t1, p1)) :
    store_history t1 new (some p1) = .ok (t1, p1) := by
  simp only [store_history] at h ⊢
  have hcov := storeGo_covers (prior.map Sample.ds) new table prior t1 p1 h
  obtain ⟨Δ, hΔ⟩ := storeGo_prev_extends (prior.map Sample.ds) new table prior t1 p1 h
  refine storeGo_skip_all (p1.map Sample.ds) new t1 p1 fun r hr => ?_
  rcases hcov r hr with hpv | hp1
  · rw [hΔ]
    simp only [List.map_append, List.mem_append]
    exact Or.inl hpv
  · exact hp1

/-- Claim C5, witness: storing the row `(1, 2)` into an empty table twice
yields the same table and series as storing it once. -/
theorem store_history_idempotent_witness :
    store_history [⟨1, 2⟩] [⟨1, 2⟩] (some [⟨1, 2⟩]) = .ok ([⟨1, 2⟩], [⟨1, 2⟩]) :=
  store_history_idempotent [] [⟨1, 2⟩] [] [⟨1, 2⟩] [⟨1, 2⟩] rfl

/-- Claim C10.  `store_history` called with `prev = None` raises TypeError at
`prev["ds"]` before any row is inserted, for every table state and every new
series: a merge needs an explicitly supplied prior series. -/
theorem store_history_none_prev_raises (table history : List Sample) :
    store_history table history none = .error (.typeError, table) := rfl
